import Mathlib

/-!
Verification of the `fastsend` block dispenser core (Rust sources under
`src/`).  The Rust code is shallowly embedded: machine integers become `Nat`
(or `Int` for signed wall-clock offsets) with explicit `% 2^w` where the
source can wrap, fallible/panicking paths return `Option`, and the
concurrent parts (the cursor CAS loop and the single-flight refill flag)
become explicit transition systems over the shared state they touch.
-/

namespace Fastsend

/-! ## Cursor (src/block/mod.rs, `Cursor`)

A `Cursor` is a `u32`; we carry it as a `Nat` together with explicit
bound checks mirroring the source's overflow panics.
-/

/-- `Cursor::TIMEBASE`: seconds of `2021-12-10 12:27:33 UTC` since the UNIX
epoch. -/
def Cursor.TIMEBASE : Nat := 1639110453

/-- `u32::MAX`. -/
def U32MAX : Nat := 4294967295

/-- `u64` modulus, for the release-mode wrapping subtraction
`timestamp -= TIMEBASE` in `Cursor::new`. -/
def U64MOD : Nat := 18446744073709551616

/-- The `TIMESTAMP` lazy static of `Cursor::new`: from the wall clock's
seconds since the UNIX epoch (negative when the clock is before it, which the
source turns into a `duration_since` error and a panic), subtract
`TIMEBASE` with `u64` wrapping and reject results above `u32::MAX`.
`none` models a panic. -/
def bootstrapTimestamp (wall : Int) : Option Nat :=
  if wall < 0 then none
  else
    let ts : Nat := (wall.toNat + U64MOD - Cursor.TIMEBASE) % U64MOD
    if ts > U32MAX then none else some ts

/-- `Cursor::new` after bootstrap: `ts` is the memoised `TIMESTAMP`,
`elapsed` the whole seconds of `START.elapsed()`.  Mirrors the source's
`elapsed > u32::MAX` panic and the `checked_add` expect.  `none` models a
panic. -/
def cursorCurrent (ts elapsed : Nat) : Option Nat :=
  if elapsed > U32MAX then none
  else if ts + elapsed > U32MAX then none
  else some (ts + elapsed)

/-- `Cursor::new` in full, as called on first use: bootstrap the timestamp
from the wall clock, then add the elapsed seconds. -/
def cursorNew (wall : Int) (elapsed : Nat) : Option Nat :=
  match bootstrapTimestamp wall with
  | none => none
  | some ts => cursorCurrent ts elapsed

/-- The spin loop of `Cursor::next`: at attempt `k` the process has been up
`elapsed k` whole seconds; recompute `Cursor::new` and return the first
result strictly greater than `c`, backing off between attempts.  The Rust
loop is unbounded, so the embedding takes fuel; exhausted fuel (a frozen
clock) returns `none`, as does a panic inside `Cursor::new`. -/
def cursorNextAux (ts : Nat) (elapsed : Nat → Nat) (c : Nat) : Nat → Nat → Option Nat
  | _, 0 => none
  | k, fuel + 1 =>
    match cursorCurrent ts (elapsed k) with
    | none => none
    | some next => if c < next then some next else cursorNextAux ts elapsed c (k + 1) fuel

/-- `Cursor::next`, starting the spin at attempt 0. -/
def cursorNext (ts : Nat) (elapsed : Nat → Nat) (c : Nat) (fuel : Nat) : Option Nat :=
  cursorNextAux ts elapsed c 0 fuel

/-! ## Block (src/block/mod.rs, `Block<T>`)

`Block<T>` is a fixed `[T; 8]` plus a dispense index.  The array is embedded
as `Fin 8 → T`. -/

/-- `Block::SIZE`. -/
def SIZE : Nat := 8

structure Block (T : Type) where
  index : Nat
  array : Fin SIZE → T
  deriving DecidableEq

/-- `Block::new`: fresh block, dispense index 0. -/
def Block.new {T : Type} (array : Fin SIZE → T) : Block T :=
  { index := 0, array := array }

/-- `<Block as Iterator>::next`: `None` once the index reaches `SIZE`,
otherwise clone the current slot and advance.  Returns the yielded item and
the block's successor state. -/
def Block.next {T : Type} (b : Block T) : Option T × Block T :=
  if h : b.index < SIZE then
    (some (b.array ⟨b.index, h⟩), { b with index := b.index + 1 })
  else
    (none, b)

/-- `<Block as Iterator>::size_hint().0`, the exact remaining count
`SIZE - index` (the source's `usize` subtraction is well defined because the
index never exceeds `SIZE`, see `Block.index_le_SIZE_next`). -/
def Block.sizeHint {T : Type} (b : Block T) : Nat :=
  SIZE - b.index

/-- Repeatedly call `Block.next`, collecting the yielded items until the
first `none` (or until fuel runs out). -/
def Block.drain {T : Type} : Nat → Block T → List T
  | 0, _ => []
  | fuel + 1, b =>
    match b.next with
    | (none, _) => []
    | (some t, b') => t :: Block.drain fuel b'

/-! ## BlockFrame constants (src/block/mod.rs, `BlockFrame<T>`) -/

/-- `BlockFrame::ELEMENT_CAP = u16::MAX as usize + 1`. -/
def ELEMENT_CAP : Nat := 65536

/-- `BlockFrame::QUEUE_SIZE = ELEMENT_CAP / Block::SIZE`. -/
def QUEUE_SIZE : Nat := ELEMENT_CAP / SIZE

/-! ## The cursor cell under CAS (src/block/mod.rs, supply closure)

The supply closure advances the shared `cursor` cell with
`loop { prev = cursor.load(); next = prev.next(); CAS(prev, next) }`.
A successful compare-exchange means the cell still held `prev` at that
moment and now holds `prev.next()`.  At the level of the cell's value
history this is one event: the current value `v` is replaced by a value
produced by `Cursor::next` applied to `v` itself. -/

/-- One completed cursor-advance of a refill that won its CAS: the cell
held `v` and now holds `v'`, where `v'` was computed by the `Cursor::next`
spin loop (`cursorNextAux`) started on `v` — under some process timestamp
`ts`, elapsed-seconds schedule, attempt offset and fuel. -/
def cellStep (v v' : Nat) : Prop :=
  ∃ ts elapsed k fuel, cursorNextAux ts elapsed v k fuel = some v'

/-! ## Single-flight refill (src/block/mod.rs, `state` CAS)

The supply closure begins with `state.compare_exchange(false, true)`; the
winner runs the cursor advance and enqueue loop and finally executes
`state.store(false)`.  A loser skips that whole body.  The program
counter of one supply invocation and the interleaving of many are made
explicit. -/

/-- Program counter of one supply invocation. -/
inductive PC : Type
  | start    -- about to attempt the CAS on `state`
  | critical -- won the CAS; inside the cursor-advance and enqueue loop
  | skipped  -- lost the CAS; went straight past the guarded body
  | done     -- finished (after `state.store(false)` for a winner)
  deriving DecidableEq, Repr

/-- Global state: the `state: AtomicCell<bool>` flag plus the program
counters of the supply invocations spawned so far. -/
structure Flight where
  flag : Bool
  procs : List PC
  deriving DecidableEq, Repr

/-- Interleaved execution: spawn a new invocation, resolve the CAS of an
invocation at `start` (success iff the flag is `false`; failure skips the
guarded body), or let the invocation inside the guarded body finish and
store `false`. -/
inductive flightStep : Flight → Flight → Prop
  | spawn (f : Flight) :
      flightStep f ⟨f.flag, PC.start :: f.procs⟩
  | casWin (l r : List PC) :
      flightStep ⟨false, l ++ PC.start :: r⟩ ⟨true, l ++ PC.critical :: r⟩
  | casLose (l r : List PC) :
      flightStep ⟨true, l ++ PC.start :: r⟩ ⟨true, l ++ PC.skipped :: r⟩
  | release (l r : List PC) :
      flightStep ⟨true, l ++ PC.critical :: r⟩ ⟨false, l ++ PC.done :: r⟩

/-- Number of invocations currently inside the guarded refill body. -/
def Flight.criticalCount (f : Flight) : Nat :=
  f.procs.count PC.critical

/-- The mutual-exclusion invariant tying the flag to the occupancy of the
guarded body. -/
def Flight.inv (f : Flight) : Prop :=
  f.criticalCount = if f.flag then 1 else 0

/-- The initial state: flag clear, no invocations yet. -/
def Flight.init : Flight := ⟨false, []⟩

/-- Reachability from the initial state by interleaved steps. -/
def flightReachable (f : Flight) : Prop :=
  Relation.ReflTransGen flightStep Flight.init f

/-! ## The supply enqueue loop (src/block/mod.rs, supply closure)

After winning the CAS and advancing the cursor, the winner shuffles
`(0..QUEUE_SIZE).collect()` and runs, over the shuffled `seq`:

    for n in seq {
        let block = T::construct_block(n, next);
        if queue.push(block).is_err() { break; }
        if let Some(waker) = waker.take() { waker.wake_by_ref(); }
    }

`pushOk j` is the outcome of the `j`-th push attempt (the queue is shared,
so its fullness is an oracle of the iteration).  The waker slot is the
`Option<&Waker>` argument; `Unit` stands for the waker itself. -/

structure LoopOut where
  constructed : List Nat   -- batch indices passed to `construct_block`, in order
  pushed : List Nat        -- batch indices successfully pushed, in order
  wakes : Nat              -- number of `wake_by_ref` calls made inside the loop
  waker : Option Unit      -- the waker slot after the loop
  deriving DecidableEq, Repr

/-- The `for n in seq` loop, starting at push attempt `j` with waker slot
`w`. -/
def enqueueLoop (pushOk : Nat → Bool) : List Nat → Nat → Option Unit → LoopOut
  | [], _, w => ⟨[], [], 0, w⟩
  | n :: rest, j, w =>
    if pushOk j then
      let (wakesHere, w') : Nat × Option Unit :=
        match w with
        | some _ => (1, none)   -- `waker.take()` succeeded: wake once, slot now empty
        | none => (0, none)
      let out := enqueueLoop pushOk rest (j + 1) w'
      ⟨n :: out.constructed, n :: out.pushed, wakesHere + out.wakes, out.waker⟩
    else
      ⟨[n], [], 0, w⟩          -- push failed: `break` before any wake

/-- Total number of `wake_by_ref` calls of one whole supply invocation:
the guarded body (when the CAS was won) followed by the unconditional
final `if let Some(waker) = waker { waker.wake_by_ref() }`. -/
def supplyWakes (won : Bool) (pushOk : Nat → Bool) (seq : List Nat) (w : Option Unit) : Nat :=
  if won then
    let out := enqueueLoop pushOk seq 0 w
    out.wakes + (if out.waker.isSome then 1 else 0)
  else
    if w.isSome then 1 else 0

/-- Batch indices a CAS-winning supply invocation passes to
`construct_block`, given the shuffled sequence and the push oracle. -/
def supplyConstructed (pushOk : Nat → Bool) (seq : List Nat) : List Nat :=
  (enqueueLoop pushOk seq 0 (some ())).constructed

/-! ## Token and Ident (src/token/mod.rs)

`Ident { a, b, c, d }`: `a, b` are the big-endian bytes of a `u16`, `c, d`
come from the environment via `cd()` (device id / process id hash and
thread-id hash) — environment-dependent, so they are parameters here.
Bytes are `Nat`s below 256. -/

structure Ident where
  a : Nat
  b : Nat
  c : Nat
  d : Nat
  deriving DecidableEq, Repr

structure Token where
  cursor : Nat
  ident : Ident
  deriving DecidableEq, Repr

/-- `Ident::new(n)`: split the `u16` `n` into its big-endian bytes and take
`(c, d)` from the environment `cd` pair. -/
def Ident.new (cd : Nat × Nat) (n : Nat) : Ident :=
  ⟨n % 65536 / 256, n % 256, cd.1, cd.2⟩

/-- `Ident::construct`: `u32::from_be_bytes([a, b, c, d])`. -/
def Ident.construct (i : Ident) : Nat :=
  ((i.a * 256 + i.b) * 256 + i.c) * 256 + i.d

/-- `Token::new`. -/
def Token.new (cursor : Nat) (ident : Ident) : Token :=
  ⟨cursor, ident⟩

/-- `<Token as ConstructBlock>::construct_block(n, cursor)`: an 8-slot
block whose `i`-th token is `Token::new(cursor, Ident::new(n * 8 + i))`,
with the `u16` arithmetic `n as u16 * size + offset` wrapping modulo
`2^16` (release semantics; the claims stay inside `n < QUEUE_SIZE`, where
no wrap occurs). -/
def construct_block (cd : Nat × Nat) (n : Nat) (cursor : Nat) : Block Token :=
  Block.new fun i => Token.new cursor (Ident.new cd ((n % 65536 * SIZE + i.val) % 65536))

/-! ## Token id (src/token/mod.rs, `impl ID for Token`)

`id` fills an 8-byte buffer through the sequential `Guard` with the
big-endian bytes of the cursor `u32` followed by the big-endian bytes of
`Ident::construct`, then reads it back as a big-endian `u64`. -/

/-- `u32::to_be_bytes`. -/
def u32ToBeBytes (x : Nat) : List Nat :=
  [x / 16777216 % 256, x / 65536 % 256, x / 256 % 256, x % 256]

/-- One `Guard::set` call: write the byte at the write index while it is
below the buffer length, else drop it. -/
def guardSet (st : List Nat × Nat) (next : Nat) : List Nat × Nat :=
  if st.2 < st.1.length then (st.1.set st.2 next, st.2 + 1) else st

/-- `u64::from_be_bytes` over an 8-byte list. -/
def u64FromBeBytes (bytes : List Nat) : Nat :=
  bytes.foldl (fun acc byte => acc * 256 + byte) 0

/-- `<Token as ID>::id`. -/
def Token.id (t : Token) : Nat :=
  let fed := u32ToBeBytes t.cursor ++ u32ToBeBytes t.ident.construct
  u64FromBeBytes (fed.foldl guardSet (List.replicate 8 0, 0)).1

/-- The id formula as the claim words it: `(cursor as u64) << 32 |
ident_construct`. -/
def Token.idFormula (t : Token) : Nat :=
  t.cursor <<< 32 ||| t.ident.construct

/-! ## The façade (src/lib.rs, `with_block` / `next_token`)

`with_block` reads the thread-local cache; when it is absent or its
remaining count is 0 it installs a fresh block awaited from the
`BlockFrame`, then hands the cached block (`borrow_mut().as_mut().unwrap()`)
to the closure.  The state the function touches is the cache cell; the
awaited block is a parameter. -/

/-- The `block_should_assign` test of `with_block`: `0 == ` the cached
block's remaining count, absent cache counting as 0. -/
def blockShouldAssign (cache : Option (Block Token)) : Bool :=
  ((cache.map Block.sizeHint).getD 0) == 0

/-- `with_block` up to the closure call: the cache cell after the optional
refill; the closure then receives the `unwrap` of this value. -/
def withBlockCache (cache : Option (Block Token)) (fresh : Block Token) :
    Option (Block Token) :=
  if blockShouldAssign cache then some fresh else cache

/-! ## Theorems -/

/-- Whatever attempt offset the spin starts at, a result it returns is
strictly greater than the cursor it was asked to exceed. -/
theorem cursorNextAux_gt (ts : Nat) (elapsed : Nat → Nat) (c v : Nat) :
    ∀ fuel k, cursorNextAux ts elapsed c k fuel = some v → c < v := by
  intro fuel
  induction fuel with
  | zero => intro k h; simp [cursorNextAux] at h
  | succ fuel ih =>
    intro k h
    unfold cursorNextAux at h
    split at h
    · exact absurd h (by simp)
    · split at h
      · cases h
        assumption
      · exact ih (k + 1) h

/-- C3: `Cursor::next(c)` returns a cursor strictly greater than `c`: the
spin loop recomputes the current cursor from the clock and only returns a
result strictly greater than `c` (whenever it returns at all — an embedding
with fuel, since a frozen clock makes the source loop spin forever). -/
theorem cursor_next_strictly_greater (ts : Nat) (elapsed : Nat → Nat) (c v fuel : Nat)
    (h : cursorNext ts elapsed c fuel = some v) : c < v :=
  cursorNextAux_gt ts elapsed c v fuel 0 h

/-- Witness for `cursor_next_strictly_greater` at a concrete clock. -/
theorem cursor_next_strictly_greater_witness : 105 < 106 :=
  cursor_next_strictly_greater 100 (fun k => k) 105 106 10 (by decide)

/-- C9 (amended): `Cursor::new` panics exactly when the wall clock is
before `TIMEBASE` (covering clocks before the UNIX epoch) or when
`(wall - TIMEBASE) + elapsed` exceeds `u32::MAX` (covering a
seconds-since-EPOCH value that does not fit in 32 bits, an `elapsed`
beyond `u32::MAX`, and the final `checked_add` overflow); otherwise it
returns exactly `bootstrap_timestamp + elapsed`.  `wall` is bounded by
`u64::MAX` as `Duration::as_secs` is a `u64`. -/
theorem cursorNew_panic_characterization (wall : Int) (elapsed : Nat)
    (hw : wall < 18446744073709551616) :
    (cursorNew wall elapsed = none ↔
      wall < (Cursor.TIMEBASE : Int) ∨
        (U32MAX : Int) < wall - (Cursor.TIMEBASE : Int) + (elapsed : Int))
    ∧ ∀ v, cursorNew wall elapsed = some v →
        (v : Int) = wall - (Cursor.TIMEBASE : Int) + (elapsed : Int) := by
  unfold cursorNew bootstrapTimestamp cursorCurrent
  unfold Cursor.TIMEBASE U32MAX U64MOD
  by_cases h0 : wall < 0
  · simp only [if_pos h0]
    refine ⟨by simp; omega, ?_⟩
    intro v hv
    exact absurd hv (by simp)
  · simp only [if_neg h0]
    by_cases h1 : (wall.toNat + 18446744073709551616 - 1639110453) % 18446744073709551616
        > 4294967295
    · simp only [if_pos h1]
      refine ⟨by simp; omega, ?_⟩
      intro v hv
      exact absurd hv (by simp)
    · simp only [if_neg h1]
      by_cases h2 : elapsed > 4294967295
      · simp only [if_pos h2]
        refine ⟨by simp; omega, ?_⟩
        intro v hv
        exact absurd hv (by simp)
      · simp only [if_neg h2]
        by_cases h3 : (wall.toNat + 18446744073709551616 - 1639110453) % 18446744073709551616
            + elapsed > 4294967295
        · simp only [if_pos h3]
          refine ⟨by simp; omega, ?_⟩
          intro v hv
          exact absurd hv (by simp)
        · simp only [if_neg h3]
          refine ⟨by simp; omega, ?_⟩
          intro v hv
          rw [Option.some.injEq] at hv
          omega

/-- Witness for `cursorNew_panic_characterization`: at a clock 5 seconds
past `TIMEBASE` with 7 elapsed seconds, `Cursor::new` returns 12. -/
theorem cursorNew_panic_characterization_witness :
    (12 : Int) = (1639110458 : Int) - (Cursor.TIMEBASE : Int) + ((7 : Nat) : Int) :=
  (cursorNew_panic_characterization 1639110458 7 (by decide)).2 12 (by decide)

/-- Counterexample to C9 as stated: at the claim's own example input — a
synthetic wall clock reading `u32::MAX` seconds past EPOCH plus the
`TIMEBASE` offset, with no process uptime — `Cursor::new` does *not* panic:
the `timestamp > u32::MAX` check lets `u32::MAX` itself through and the
`checked_add` succeeds, so construction returns `Cursor(u32::MAX)`. -/
theorem cursorNew_u32max_example_not_fatal :
    cursorNew ((Cursor.TIMEBASE : Int) + (U32MAX : Int)) 0 = some U32MAX ∧
      cursorNew ((Cursor.TIMEBASE : Int) + (U32MAX : Int)) 0 ≠ none := by
  constructor
  · decide
  · decide

/-- The dispense index never passes `SIZE`: `Block::new` starts at 0 and
`next` only increments while the index is below `SIZE`. -/
theorem Block.index_le_SIZE_next {T : Type} (b : Block T) (h : b.index ≤ SIZE) :
    (b.next).2.index ≤ SIZE := by
  unfold Block.next
  split
  · show b.index + 1 ≤ SIZE
    simp only [SIZE] at *
    omega
  · exact h

/-- Items drained from a block: one per remaining slot, capped by fuel. -/
theorem Block.drain_length {T : Type} (k : Nat) (b : Block T) :
    (Block.drain k b).length = min k (SIZE - b.index) := by
  induction k generalizing b with
  | zero => simp [Block.drain]
  | succ k ih =>
    by_cases h : b.index < SIZE
    · simp only [Block.drain, Block.next, dif_pos h, List.length_cons]
      rw [ih]
      simp only [SIZE] at h ⊢
      omega
    · simp only [Block.drain, Block.next, dif_neg h, List.length_nil]
      simp only [SIZE] at h ⊢
      omega

/-- C7: the `Iterator` impl of `Block`: `next` yields `None` exactly when
the remaining count is 0; otherwise it clones the slot at the current
index, advances the index and leaves the item array untouched; the
remaining count is exactly `SIZE - index`; and a fresh block yields exactly
`SIZE = 8` items no matter how often it is polled afterwards. -/
theorem Block_take_next_spec {T : Type} (b : Block T) (hb : b.index ≤ SIZE)
    (arr : Fin SIZE → T) :
    ((b.next).1 = none ↔ b.sizeHint = 0)
    ∧ (b.next).2.array = b.array
    ∧ (∀ h : b.index < SIZE,
        b.next = (some (b.array ⟨b.index, h⟩), { b with index := b.index + 1 }))
    ∧ b.sizeHint = SIZE - b.index
    ∧ (∀ k, (Block.drain k (Block.new arr)).length = min k SIZE) := by
  refine ⟨?_, ?_, ?_, rfl, ?_⟩
  · unfold Block.next Block.sizeHint
    split
    next h =>
      refine iff_of_false (by simp) ?_
      simp only [SIZE] at h ⊢
      omega
    next h =>
      refine iff_of_true rfl ?_
      simp only [SIZE] at h ⊢
      omega
  · unfold Block.next
    split
    · rfl
    · rfl
  · intro h
    unfold Block.next
    rw [dif_pos h]
  · intro k
    rw [Block.drain_length]
    simp [Block.new]

/-- Witness for `Block_take_next_spec` at a partially drained concrete
block. -/
theorem Block_take_next_spec_witness :
    (Block.mk 3 (fun _ : Fin SIZE => (0 : Nat))).sizeHint = SIZE - 3 :=
  (Block_take_next_spec (Block.mk 3 fun _ => 0) (by decide) (fun _ => 0)).2.2.2.1

/-- A completed cursor-advance installs a value strictly greater than the
value it replaced, because `Cursor::next` only returns such values. -/
theorem cellStep_lt {v v' : Nat} (h : cellStep v v') : v < v' := by
  obtain ⟨ts, elapsed, k, fuel, h⟩ := h
  exact cursorNextAux_gt ts elapsed v v' fuel k h

/-- C2: the shared cursor cell is monotone: every winning refill's CAS loop
installs a cursor strictly greater than the one it replaced, so along any
history of completed cursor advances the cell's values are pairwise
strictly increasing — in particular non-decreasing over time, and no two
refills ever use the same cursor. -/
theorem cursor_cell_monotone (trace : List Nat) (htrace : trace.Chain' cellStep) :
    (∀ v v', cellStep v v' → v < v')
    ∧ trace.Pairwise (· < ·)
    ∧ trace.Pairwise (· ≤ ·) := by
  have hlt : trace.Pairwise (· < ·) :=
    List.chain'_iff_pairwise.mp (htrace.imp fun a b h => cellStep_lt h)
  exact ⟨fun _ _ h => cellStep_lt h, hlt, hlt.imp Nat.le_of_lt⟩

/-- Witness for `cursor_cell_monotone` on a concrete two-refill history. -/
theorem cursor_cell_monotone_witness : [5, 7].Pairwise (· < · : Nat → Nat → Prop) :=
  (cursor_cell_monotone [5, 7]
    (List.chain'_cons.mpr ⟨⟨0, fun _ => 7, 0, 1, by decide⟩, List.chain'_singleton 7⟩)).2.1

/-- Each interleaving step preserves the single-flight invariant tying the
`state` flag to the occupancy of the guarded refill body. -/
theorem flightStep_inv {f f' : Flight} (hstep : flightStep f f') (hinv : Flight.inv f) :
    Flight.inv f' := by
  cases hstep with
  | spawn f =>
    simp only [Flight.inv, Flight.criticalCount, List.count_cons] at *
    simpa using hinv
  | casWin l r =>
    simp only [Flight.inv, Flight.criticalCount, List.count_append, List.count_cons] at *
    simp at hinv ⊢
    omega
  | casLose l r =>
    simp only [Flight.inv, Flight.criticalCount, List.count_append, List.count_cons] at *
    simp at hinv ⊢
    omega
  | release l r =>
    simp only [Flight.inv, Flight.criticalCount, List.count_append, List.count_cons] at *
    simp at hinv ⊢
    omega

/-- C4: single-flight refill.  In every state reachable by interleaving
supply invocations, the flag matches the occupancy of the guarded body, so
at most one invocation is between its winning CAS of `state` and the
closing `store(false)`; a CAS loser (the `casLose` transition) moves
straight past the guarded body without ever entering it. -/
theorem single_flight_refill (f : Flight) (h : flightReachable f) :
    Flight.inv f ∧ f.criticalCount ≤ 1 := by
  have hinv : Flight.inv f := by
    induction h with
    | refl => simp [Flight.inv, Flight.init, Flight.criticalCount]
    | tail hrtg hstep ih => exact flightStep_inv hstep ih
  refine ⟨hinv, ?_⟩
  simp only [Flight.inv] at hinv
  split at hinv <;> omega

/-- Witness for `single_flight_refill`: spawn one invocation and let it win
the CAS. -/
theorem single_flight_refill_witness :
    (Flight.mk true [PC.critical]).criticalCount ≤ 1 :=
  (single_flight_refill ⟨true, [PC.critical]⟩
    (Relation.ReflTransGen.tail
      (Relation.ReflTransGen.tail Relation.ReflTransGen.refl (flightStep.spawn Flight.init))
      (flightStep.casWin [] []))).2

/-- The enqueue loop run with an empty waker slot never wakes and leaves
the slot empty. -/
theorem enqueueLoop_none (pushOk : Nat → Bool) (seq : List Nat) :
    ∀ j, (enqueueLoop pushOk seq j none).wakes = 0
      ∧ (enqueueLoop pushOk seq j none).waker = none := by
  induction seq with
  | nil => intro j; exact ⟨rfl, rfl⟩
  | cons n rest ih =>
    intro j
    have h' := ih (j + 1)
    by_cases h : pushOk j <;> simp [enqueueLoop, h, h'.1, h'.2]

/-- The enqueue loop run with a full waker slot wakes once in the loop and
empties the slot, or wakes never and leaves the slot full. -/
theorem enqueueLoop_some (pushOk : Nat → Bool) (seq : List Nat) :
    ∀ j, (enqueueLoop pushOk seq j (some ())).wakes
        + (if (enqueueLoop pushOk seq j (some ())).waker.isSome then 1 else 0) = 1 := by
  induction seq with
  | nil => intro j; rfl
  | cons n rest ih =>
    intro j
    by_cases h : pushOk j
    · have h0 := enqueueLoop_none pushOk rest (j + 1)
      simp [enqueueLoop, h, h0.1, h0.2]
    · simp [enqueueLoop, h]

/-- C5: every supply invocation handed a waker wakes it exactly once —
on its first successful push when it wins the single-flight CAS and some
push succeeds, and otherwise in the closing `if let` of the routine; later
successful pushes find the `Option` already emptied by `take` and never
wake again. -/
theorem supply_wakes_exactly_once (won : Bool) (pushOk : Nat → Bool) (seq : List Nat) :
    supplyWakes won pushOk seq (some ()) = 1 := by
  cases won with
  | false => rfl
  | true =>
    simp only [supplyWakes, if_pos]
    exact enqueueLoop_some pushOk seq 0

/-- The batch indices handed to `construct_block` are an initial segment of
the shuffled sequence: everything up to and including the first index whose
push fails, or the whole sequence when every push succeeds. -/
theorem enqueueLoop_constructed_init (pushOk : Nat → Bool) (seq : List Nat) :
    ∀ j w, ∃ rest, seq = (enqueueLoop pushOk seq j w).constructed ++ rest := by
  induction seq with
  | nil => intro j w; exact ⟨[], rfl⟩
  | cons n tl ih =>
    intro j w
    by_cases h : pushOk j
    · simp only [enqueueLoop, if_pos h]
      obtain ⟨rest, hrest⟩ := ih (j + 1) (match w with | some _ => none | none => none)
      refine ⟨rest, ?_⟩
      cases w <;> simpa using hrest
    · simp only [enqueueLoop, if_neg h]
      exact ⟨tl, rfl⟩

/-- With no push failure the loop walks the whole sequence. -/
theorem enqueueLoop_constructed_all (pushOk : Nat → Bool) (hok : ∀ j, pushOk j = true)
    (seq : List Nat) : ∀ j w, (enqueueLoop pushOk seq j w).constructed = seq := by
  induction seq with
  | nil => intro j w; rfl
  | cons n tl ih =>
    intro j w
    simp only [enqueueLoop, if_pos (hok j)]
    cases w <;> simp [ih (j + 1)]

/-- C6: within one CAS-winning refill, the batch indices passed to the
constructor form a prefix of the shuffled permutation of
`{0 … QUEUE_SIZE - 1}`: no index repeats, none lies outside the range, and
when every push succeeds (the normal case) every index is passed exactly
once — the constructed sequence is the full permutation. -/
theorem refill_constructed_indices (pushOk : Nat → Bool) (seq : List Nat)
    (hperm : seq.Perm (List.range QUEUE_SIZE)) :
    (∃ rest, seq = supplyConstructed pushOk seq ++ rest)
    ∧ (supplyConstructed pushOk seq).Nodup
    ∧ (∀ n ∈ supplyConstructed pushOk seq, n < QUEUE_SIZE)
    ∧ ((∀ j, pushOk j = true) →
        (supplyConstructed pushOk seq).Perm (List.range QUEUE_SIZE)) := by
  obtain ⟨rest, hrest⟩ := enqueueLoop_constructed_init pushOk seq 0 (some ())
  have hsub : (supplyConstructed pushOk seq).Sublist seq := by
    conv_rhs => rw [hrest]
    exact List.sublist_append_left _ rest
  have hnodup : seq.Nodup := hperm.nodup_iff.mpr (List.nodup_range _)
  refine ⟨⟨rest, hrest⟩, hnodup.sublist hsub, ?_, ?_⟩
  · intro n hn
    have : n ∈ List.range QUEUE_SIZE := (hperm.mem_iff).mp (hsub.mem hn)
    exact List.mem_range.mp this
  · intro hok
    rw [supplyConstructed, enqueueLoop_constructed_all pushOk hok seq 0 (some ())]
    exact hperm

/-- Witness for `refill_constructed_indices` with the identity shuffle and
an always-successful queue. -/
theorem refill_constructed_indices_witness :
    (supplyConstructed (fun _ => true) (List.range QUEUE_SIZE)).Nodup :=
  (refill_constructed_indices (fun _ => true) (List.range QUEUE_SIZE)
    (List.Perm.refl _)).2.1

/-- All `ELEMENT_CAP` tokens a refill constructs for a single cursor: the
8 slots of every block over every batch index `0 … QUEUE_SIZE - 1`. -/
def allTokens (cd : Nat × Nat) (c : Nat) : List Token :=
  (List.range QUEUE_SIZE).flatMap fun n => List.ofFn ((construct_block cd n c).array)

/-- Slot `i` of the block for batch index `n < QUEUE_SIZE`: its ident
carries the big-endian bytes of the `u16` value `n * SIZE + i`. -/
theorem construct_block_slot (cd : Nat × Nat) (n c : Nat) (i : Fin SIZE)
    (hn : n < QUEUE_SIZE) :
    (construct_block cd n c).array i
      = Token.mk c ⟨(n * SIZE + i.val) / 256, (n * SIZE + i.val) % 256, cd.1, cd.2⟩ := by
  have hn' : n < 8192 := by simpa [QUEUE_SIZE, ELEMENT_CAP, SIZE] using hn
  have hi : i.val < 8 := by simpa [SIZE] using i.isLt
  simp only [construct_block, Block.new, Token.new, Ident.new, SIZE, Token.mk.injEq,
    Ident.mk.injEq]
  simp only [true_and, and_true]
  omega

/-- C1: for a fixed cursor, `Token::construct_block` yields blocks whose
ident encodes the `u16` value `n * 8 + slot_offset` in its first two bytes;
these values are pairwise distinct over all `(n, slot)` pairs, so the
multiset of all `ELEMENT_CAP` tokens built for one cursor (and one
process environment `cd`) has no duplicates. -/
theorem construct_block_no_duplicates (cd : Nat × Nat) (c : Nat)
    (n₁ n₂ : Nat) (i₁ i₂ : Fin SIZE) (h₁ : n₁ < QUEUE_SIZE) (h₂ : n₂ < QUEUE_SIZE) :
    (((construct_block cd n₁ c).array i₁).ident.a * 256
        + ((construct_block cd n₁ c).array i₁).ident.b = n₁ * SIZE + i₁.val)
    ∧ ((construct_block cd n₁ c).array i₁ = (construct_block cd n₂ c).array i₂
        → n₁ = n₂ ∧ i₁ = i₂)
    ∧ (allTokens cd c).Nodup
    ∧ (allTokens cd c).length = ELEMENT_CAP := by
  have key : ∀ m₁ m₂ : Nat, ∀ j₁ j₂ : Fin SIZE, m₁ < QUEUE_SIZE → m₂ < QUEUE_SIZE →
      (construct_block cd m₁ c).array j₁ = (construct_block cd m₂ c).array j₂ →
      m₁ = m₂ ∧ j₁ = j₂ := by
    intro m₁ m₂ j₁ j₂ hm₁ hm₂ heq
    rw [construct_block_slot cd m₁ c j₁ hm₁, construct_block_slot cd m₂ c j₂ hm₂] at heq
    simp only [Token.mk.injEq, Ident.mk.injEq] at heq
    have hm₁' : m₁ < 8192 := by simpa [QUEUE_SIZE, ELEMENT_CAP, SIZE] using hm₁
    have hm₂' : m₂ < 8192 := by simpa [QUEUE_SIZE, ELEMENT_CAP, SIZE] using hm₂
    have hj₁ : j₁.val < 8 := by simpa [SIZE] using j₁.isLt
    have hj₂ : j₂.val < 8 := by simpa [SIZE] using j₂.isLt
    have hval : m₁ * SIZE + j₁.val = m₂ * SIZE + j₂.val := by
      simp only [SIZE] at *
      omega
    constructor
    · simp only [SIZE] at hval
      omega
    · apply Fin.ext
      simp only [SIZE] at hval
      omega
  refine ⟨?_, key n₁ n₂ i₁ i₂ h₁ h₂, ?_, ?_⟩
  · rw [construct_block_slot cd n₁ c i₁ h₁]
    have hn' : n₁ < 8192 := by simpa [QUEUE_SIZE, ELEMENT_CAP, SIZE] using h₁
    have hi := i₁.isLt
    simp only [SIZE] at *
    omega
  · rw [allTokens, List.nodup_flatMap]
    constructor
    · intro n hn
      rw [List.nodup_ofFn]
      intro j₁ j₂ heq
      exact (key n n j₁ j₂ (List.mem_range.mp hn) (List.mem_range.mp hn) heq).2
    · have hpw := List.pairwise_lt_range QUEUE_SIZE
      refine hpw.imp_of_mem ?_
      intro m₁ m₂ hmem₁ hmem₂ hlt t ht₁ ht₂
      obtain ⟨j₁, hj₁⟩ := ((List.mem_ofFn _ t).mp ht₁)
      obtain ⟨j₂, hj₂⟩ := ((List.mem_ofFn _ t).mp ht₂)
      have := (key m₁ m₂ j₁ j₂ (List.mem_range.mp hmem₁) (List.mem_range.mp hmem₂)
        (hj₁.trans hj₂.symm)).1
      omega
  · rw [allTokens, List.length_flatMap]
    have hmap : List.map (List.length ∘ fun n => List.ofFn ((construct_block cd n c).array))
        (List.range QUEUE_SIZE) = List.map (fun _ => SIZE) (List.range QUEUE_SIZE) := by
      refine List.map_congr_left ?_
      intro n _
      simp [SIZE]
    rw [hmap, List.map_const', List.sum_replicate]
    simp [QUEUE_SIZE, ELEMENT_CAP, SIZE]

/-- Witness for `construct_block_no_duplicates` on concrete batch
indices. -/
theorem construct_block_no_duplicates_witness :
    ((construct_block (0, 0) 1 0).array ⟨0, by decide⟩).ident.a * 256
        + ((construct_block (0, 0) 1 0).array ⟨0, by decide⟩).ident.b
      = 1 * SIZE + (⟨0, by decide⟩ : Fin SIZE).val :=
  (construct_block_no_duplicates (0, 0) 0 1 2 ⟨0, by decide⟩ ⟨0, by decide⟩
    (by decide) (by decide)).1

/-- C10: `<Token as ID>::id` feeds the big-endian cursor bytes and the
big-endian `Ident::construct` bytes through the sequential 8-byte guard, so
the resulting `u64` is exactly `(cursor as u64) << 32 | ident_construct`;
that map is injective on `(cursor, ident)` pairs, hence distinct tokens get
distinct ids. -/
theorem Token_id_spec (t : Token) (hcur : t.cursor ≤ U32MAX) (ha : t.ident.a ≤ 255)
    (hb : t.ident.b ≤ 255) (hc : t.ident.c ≤ 255) (hd : t.ident.d ≤ 255) :
    Token.id t = Token.idFormula t
    ∧ Token.id t = t.cursor * 4294967296 + t.ident.construct
    ∧ ∀ t' : Token, t'.cursor ≤ U32MAX → t'.ident.a ≤ 255 → t'.ident.b ≤ 255 →
        t'.ident.c ≤ 255 → t'.ident.d ≤ 255 → Token.id t = Token.id t' → t = t' := by
  have key : ∀ s : Token, s.cursor ≤ U32MAX → s.ident.a ≤ 255 → s.ident.b ≤ 255 →
      s.ident.c ≤ 255 → s.ident.d ≤ 255 →
      Token.id s = s.cursor * 4294967296 + s.ident.construct := by
    rintro ⟨cur, a, b, cc, dd⟩ h1 h2 h3 h4 h5
    simp only [U32MAX] at h1
    simp [Token.id, Ident.construct, u32ToBeBytes, u64FromBeBytes, guardSet,
      List.replicate] at *
    omega
  have hconstructLt : t.ident.construct < 2 ^ 32 := by
    simp only [Ident.construct]
    omega
  refine ⟨?_, key t hcur ha hb hc hd, ?_⟩
  · rw [key t hcur ha hb hc hd, Token.idFormula, Nat.shiftLeft_eq]
    calc t.cursor * 4294967296 + t.ident.construct
        = 2 ^ 32 * t.cursor + t.ident.construct := by ring_nf
      _ = 2 ^ 32 * t.cursor ||| t.ident.construct :=
          Nat.mul_add_lt_is_or hconstructLt t.cursor
      _ = t.cursor * 2 ^ 32 ||| t.ident.construct := by rw [Nat.mul_comm]
  · intro t' h1 h2 h3 h4 h5 heq
    rw [key t hcur ha hb hc hd, key t' h1 h2 h3 h4 h5] at heq
    rcases t with ⟨cur, a, b, cc, dd⟩
    rcases t' with ⟨cur', a', b', cc', dd'⟩
    simp only [Ident.construct, U32MAX] at heq ha hb hc hd h1 h2 h3 h4 h5 hcur
    simp only [Token.mk.injEq, Ident.mk.injEq]
    omega

/-- Witness for `Token_id_spec` at a concrete token. -/
theorem Token_id_spec_witness :
    Token.id ⟨1, ⟨0, 0, 0, 2⟩⟩ = (1 : Nat) * 4294967296 + Ident.construct ⟨0, 0, 0, 2⟩ :=
  (Token_id_spec ⟨1, ⟨0, 0, 0, 2⟩⟩ (by decide) (by decide) (by decide) (by decide)
    (by decide)).2.1

/-- C8: `with_block` always hands its closure a block with at least one
remaining item: when the thread-local cache is absent or drained, the
fresh block awaited from the `BlockFrame` (dispense index 0) is installed
first, so the cache cell is `Some` (`unwrap` succeeds) and its block's
`next` cannot return `None` (`next_token`'s `expect` is unreachable). -/
theorem with_block_nonempty (cache : Option (Block Token)) (fresh : Block Token)
    (hfresh : fresh.index = 0) :
    ∃ b, withBlockCache cache fresh = some b ∧ 1 ≤ b.sizeHint ∧ (b.next).1 ≠ none := by
  have hnext : ∀ blk : Block Token, 1 ≤ blk.sizeHint → (blk.next).1 ≠ none := by
    intro blk hblk
    have hlt : blk.index < SIZE := by
      unfold Block.sizeHint at hblk
      omega
    unfold Block.next
    rw [dif_pos hlt]
    simp
  have hfreshHint : 1 ≤ fresh.sizeHint := by
    unfold Block.sizeHint
    rw [hfresh]
    simp [SIZE]
  by_cases h : blockShouldAssign cache = true
  · exact ⟨fresh, by simp [withBlockCache, h], hfreshHint, hnext fresh hfreshHint⟩
  · cases cache with
    | none => exact absurd (by simp [blockShouldAssign]) h
    | some b =>
      have hbne : b.sizeHint ≠ 0 := by
        simp [blockShouldAssign] at h
        exact h
      exact ⟨b, by simp [withBlockCache, h], by omega, hnext b (by omega)⟩

/-- Witness for `with_block_nonempty`: an empty cache refilled by a fresh
constructed block. -/
theorem with_block_nonempty_witness :
    ∃ b, withBlockCache none (construct_block (0, 0) 0 0) = some b
      ∧ 1 ≤ b.sizeHint ∧ (b.next).1 ≠ none :=
  with_block_nonempty none (construct_block (0, 0) 0 0) rfl

end Fastsend
